import Mathlib

/-!
Verification of the incremental archive engine of `scripts/collect.py`
in the news-alert-search repository: the revalidation cache, the
conditional fetcher, the batch deduplicator, the month-partitioned
archive upsert, and the retention pruner.

The Python functions are shallowly embedded as executable Lean
definitions.  File-system state is made explicit: the archive is an
association list from month-key strings to partition contents, the
revalidation cache is a record per URL, and the write discipline of the
two persistence paths is modelled as a trace of file-system operations.
Wall-clock readings (`now_jst`, elapsed milliseconds) enter the
embedding as parameters, since they are inputs the code merely copies.
-/

/-- A feed item, the dict built by `normalize_entry` (collect.py lines
257-275): the five string fields `title, link, pubDate, source,
category`.  `pubDate` is the canonical `YYYY-MM-DDTHH:MM:SSZ` text
produced by `isoformat_z`. -/
structure Item where
  title : String
  link : String
  pubDate : String
  source : String
  category : String
  deriving DecidableEq

/-- A file-system operation performed by a persistence routine.  `write`
creates or truncates `path` and writes `content`; `rename` atomically
replaces `dst` with `src` (`Path.replace`). -/
inductive FsOp where
  | write (path content : String)
  | rename (src dst : String)
  deriving DecidableEq

/-- The path constant `HTTP_CACHE_FILE` of collect.py line 33, relative
to the repository root. -/
def HTTP_CACHE_FILE : String := "config/http_cache.json"

/-- The trace of file-system operations performed by `save_http_cache`
(collect.py lines 86-88): a single direct `open(..., "w")` / `json.dump`
on the target file, parameterised by the serialized mapping text. -/
def save_http_cache_ops (serialized : String) : List FsOp :=
  [FsOp.write HTTP_CACHE_FILE serialized]

/-- The trace of file-system operations performed by `write_ndjson_gz`
(collect.py lines 151-156): write the gzipped ndjson text to
`path + ".tmp"` (the effect of `with_suffix(path.suffix + ".tmp")`),
then rename the temporary over `path`. -/
def write_ndjson_gz_ops (path serialized : String) : List FsOp :=
  [FsOp.write (path ++ ".tmp") serialized, FsOp.rename (path ++ ".tmp") path]

/-- The atomic-save discipline the specification describes: the whole
content is first written to a temporary path distinct from the target
and then renamed over the target, so an interrupted run never leaves a
torn target file. -/
def atomicReplace (ops : List FsOp) (target : String) : Prop :=
  ∃ tmp content, tmp ≠ target ∧ ops = [FsOp.write tmp content, FsOp.rename tmp target]

/-- A JSON value, as far as the cache file is concerned.  Numbers are
modelled as integers; the claims under study never depend on JSON
number semantics. -/
inductive Json where
  | null
  | bool (b : Bool)
  | num (n : Int)
  | str (s : String)
  | arr (elems : List Json)
  | obj (fields : List (String × Json))

/-- Python truthiness of a JSON value, as tested by `json.load(f) or
an empty dict` in `load_http_cache`. -/
def Json.truthy : Json → Bool
  | .null => false
  | .bool b => b
  | .num n => n != 0
  | .str s => s != ""
  | .arr elems => !elems.isEmpty
  | .obj fields => !fields.isEmpty

/-- The observable state of the cache file when `load_http_cache` runs:
the file is absent, the file exists but opening or reading it raises,
the file reads but `json.load` raises, or the file parses to the JSON
value `j`. -/
inductive CacheFileState where
  | missing
  | unreadable
  | malformed
  | parsed (j : Json)

/-- `load_http_cache` (collect.py lines 65-83): a missing file yields an
empty mapping; any exception while opening, reading or parsing is
caught and yields an empty mapping; a parsed falsy value (in particular
JSON null) is replaced by an empty mapping by the `or` fallback.  The
embedding is a total function: no input state raises. -/
def load_http_cache : CacheFileState → Json
  | .missing => Json.obj []
  | .unreadable => Json.obj []
  | .malformed => Json.obj []
  | .parsed j => if j.truthy then j else Json.obj []

/-- `safe_text` (collect.py lines 59-62) applied to an optional string:
a missing value becomes the empty string, a present one is stripped. -/
def safe_text (s : Option String) : String :=
  (s.getD "").trim

/-- One revalidation record of the HTTP cache, the per-URL dict stored
in `http_cache.json`.  Each field is optional because the Python dict
may lack any of the keys `etag`, `last_modified`, `last_status`,
`last_checked`. -/
structure CacheRec where
  etag : Option String
  lastModified : Option String
  lastStatus : Option Int
  lastChecked : Option String
  deriving DecidableEq

/-- The outcome of the network call inside `fetch_feed`: either a
response with a status code, optional `ETag` / `Last-Modified` headers
and a body, or an exception raised by `requests.get` (transport error
or timeout). -/
inductive HttpResp where
  | ok (status : Nat) (etagHeader lastModifiedHeader : Option String) (body : String)
  | exn (message : String)
  deriving DecidableEq

/-- The metadata dict returned by `fetch_feed` (elapsed-time field
omitted: it is a wall-clock reading, not program logic). -/
structure FetchInfo where
  status : Int
  usedCache : Bool
  error : Option String
  deriving DecidableEq

/-- What `fetch_feed` produces: the parsed feed (modelled by the raw
body it would hand to `feedparser.parse`, `none` standing for the
Python `None` returned on 304 or failure), the revalidation record it
stores back into `http_cache[url]`, and the info dict. -/
structure FetchOutcome where
  feed : Option String
  record : CacheRec
  info : FetchInfo
  deriving DecidableEq

/-- `fetch_feed` (collect.py lines 178-254) as a function of the cached
record for the URL, the network outcome, and the `now_jst()` reading
taken for `last_checked`.  A 304 keeps the cached validators and
records status 304; a 2xx-3xx response stores fresh validators only
when the response carries non-empty headers and records the status; a
raised status (`raise_for_status`, fired at 4xx-5xx) or a transport
exception lands in the `except` branch, which keeps the cached
validators and records the sentinel status -1. -/
def fetch_feed (cache : CacheRec) (resp : HttpResp) (now : String) : FetchOutcome :=
  let etag := safe_text cache.etag
  let lastMod := safe_text cache.lastModified
  let usedCache := etag != "" || lastMod != ""
  match resp with
  | .exn msg =>
      { feed := none
        record := { cache with lastStatus := some (-1), lastChecked := some now }
        info := { status := -1, usedCache := usedCache, error := some msg } }
  | .ok status etagHeader lastModifiedHeader body =>
      if status = 304 then
        { feed := none
          record := { cache with lastStatus := some 304, lastChecked := some now }
          info := { status := 304, usedCache := usedCache, error := none } }
      else if 400 ≤ status then
        { feed := none
          record := { cache with lastStatus := some (-1), lastChecked := some now }
          info := { status := -1, usedCache := usedCache, error := some "HTTPError" } }
      else
        let newEtag := safe_text etagHeader
        let newLastMod := safe_text lastModifiedHeader
        let upd1 := if newEtag != "" then { cache with etag := some newEtag } else cache
        let upd2 := if newLastMod != "" then { upd1 with lastModified := some newLastMod } else upd1
        { feed := some body
          record := { upd2 with lastStatus := some (status : Int), lastChecked := some now }
          info := { status := (status : Int), usedCache := usedCache, error := none } }

/-- Lexicographic comparison of character lists by Unicode code point,
the order Python uses to compare strings. -/
def listLt : List Char → List Char → Bool
  | [], [] => false
  | [], _ :: _ => true
  | _ :: _, [] => false
  | a :: as, b :: bs =>
      if a.toNat < b.toNat then true
      else if b.toNat < a.toNat then false
      else listLt as bs

/-- The Python string order `a < b`, executed on the underlying
character lists. -/
def strLt (a b : String) : Bool :=
  listLt a.data b.data

/-- The Python string order `a <= b`. -/
def strLe (a b : String) : Bool :=
  !(strLt b a)

/-- One step of the dedupe loop at the end of `collect_all` (collect.py
lines 331-339): the dict `best` keyed by link, updated in place when
the incoming item has a strictly greater `pubDate` string.  The dict is
modelled as an association list in insertion order. -/
def dedupeUpd (best : List (String × Item)) (it : Item) : List (String × Item) :=
  match best with
  | [] => [(it.link, it)]
  | (k, v) :: rest =>
      if k = it.link then
        (if strLt v.pubDate it.pubDate then (k, it) :: rest else (k, v) :: rest)
      else
        (k, v) :: dedupeUpd rest it

/-- The batch deduplicator of `collect_all` (collect.py lines 330-340):
fold the update step over the collected items, starting from an empty
dict. -/
def dedupe (items : List Item) : List (String × Item) :=
  items.foldl dedupeUpd []

/-- Lookup in the link-keyed dict (Python `best[lk]` / `lk in best`). -/
def lookupLink (best : List (String × Item)) (lk : String) : Option Item :=
  match best with
  | [] => none
  | (k, v) :: rest => if k = lk then some v else lookupLink rest lk

/-- The effect of one dedupe step on the entry stored for a fixed link:
first item wins unless a strictly newer `pubDate` arrives. -/
def ostep (acc : Option Item) (it : Item) : Option Item :=
  match acc with
  | none => some it
  | some v => if strLt v.pubDate it.pubDate then some it else some v

/-- A civil date-time at second precision, the result of
`datetime.fromisoformat` on a canonical `pubDate` string. -/
structure DT where
  year : Nat
  month : Nat
  day : Nat
  hour : Nat
  minute : Nat
  second : Nat
  deriving DecidableEq

/-- Numeric value of a decimal digit character. -/
def digitVal (c : Char) : Option Nat :=
  if c.isDigit then some (c.toNat - 48) else none

/-- Two decimal digits. -/
def twoDigits (a b : Char) : Option Nat := do
  let x ← digitVal a
  let y ← digitVal b
  pure (10 * x + y)

/-- Four decimal digits. -/
def fourDigits (a b c d : Char) : Option Nat := do
  let x ← twoDigits a b
  let y ← twoDigits c d
  pure (100 * x + y)

/-- Gregorian leap-year rule, as used by `datetime`. -/
def isLeap (y : Nat) : Bool :=
  y % 4 == 0 && (y % 100 != 0 || y % 400 == 0)

/-- Days in a civil month. -/
def daysInMonth (y m : Nat) : Nat :=
  if m = 2 then (if isLeap y then 29 else 28)
  else if m = 4 ∨ m = 6 ∨ m = 9 ∨ m = 11 then 30
  else 31

/-- Parse of a canonical UTC timestamp `YYYY-MM-DDTHH:MM:SSZ`, the
exact shape `isoformat_z` (collect.py lines 119-120) writes into every
archived item.  This models the
`datetime.fromisoformat(pubDate.replace("Z", "+00:00"))` call of
`upsert_archive` (line 348) on that canonical shape; any other string
is a parse failure, as `fromisoformat` raises on the malformed strings
relevant here. -/
def parseIsoZ (s : String) : Option DT :=
  match s.data with
  | [y1, y2, y3, y4, sep1, m1, m2, sep2, d1, d2, sepT, h1, h2, sep3, n1, n2, sep4, s1, s2, sepZ] => do
      guard (sep1 = '-' ∧ sep2 = '-' ∧ sepT = 'T' ∧ sep3 = ':' ∧ sep4 = ':' ∧ sepZ = 'Z')
      let y ← fourDigits y1 y2 y3 y4
      let mo ← twoDigits m1 m2
      let d ← twoDigits d1 d2
      let h ← twoDigits h1 h2
      let mi ← twoDigits n1 n2
      let se ← twoDigits s1 s2
      guard (1 ≤ mo ∧ mo ≤ 12 ∧ 1 ≤ d ∧ d ≤ daysInMonth y mo ∧ h ≤ 23 ∧ mi ≤ 59 ∧ se ≤ 59)
      pure ⟨y, mo, d, h, mi, se⟩
  | _ => none

/-- Zero-padded two-digit rendering (`f"{m:02d}"`). -/
def pad2 (n : Nat) : String :=
  if n < 10 then "0" ++ toString n else toString n

/-- Zero-padded four-digit rendering (`f"{y:04d}"`). -/
def pad4 (n : Nat) : String :=
  if n < 10 then "000" ++ toString n
  else if n < 100 then "00" ++ toString n
  else if n < 1000 then "0" ++ toString n
  else toString n

/-- `month_key_from_dt` (collect.py lines 123-125): convert the UTC
date-time to JST (UTC+9, no daylight saving) and render
`YYYY-MM` of the JST civil date.  Adding nine hours can roll the day,
the month and the year; minutes and seconds never affect the result. -/
def month_key_from_dt (dt : DT) : String :=
  let h := dt.hour + 9
  if h < 24 then pad4 dt.year ++ "-" ++ pad2 dt.month
  else
    let d := dt.day + 1
    if d ≤ daysInMonth dt.year dt.month then pad4 dt.year ++ "-" ++ pad2 dt.month
    else if dt.month = 12 then pad4 (dt.year + 1) ++ "-" ++ pad2 1
    else pad4 dt.year ++ "-" ++ pad2 (dt.month + 1)

/-- The month key an item is bucketed under by `upsert_archive`
(collect.py lines 347-350): parse the canonical `pubDate` and apply
`month_key_from_dt`. -/
def monthKeyOfItem (it : Item) : Option String :=
  (parseIsoZ it.pubDate).map month_key_from_dt

/-- The month-partitioned archive on disk: one entry per existing
partition file, keyed by month key, holding the parsed item lines of
that `.ndjson.gz` file.  `none` on lookup means the file does not
exist (`read_ndjson_gz` then yields the empty list). -/
abbrev Store := List (String × List Item)

/-- Lookup of a partition file. -/
def storeGet : Store → String → Option (List Item)
  | [], _ => none
  | (k, v) :: rest, mk => if k = mk then some v else storeGet rest mk

/-- (Re)writing a partition file (the `write_ndjson_gz` call of
`upsert_archive`, at the store level). -/
def storeSet : Store → String → List Item → Store
  | [], mk, v => [(mk, v)]
  | (k, w) :: rest, mk, v => if k = mk then (k, v) :: rest else (k, w) :: storeSet rest mk v

/-- Deleting a partition file (`p.unlink` in `prune_old_archives`). -/
def storeErase : Store → String → Store
  | [], _ => []
  | (k, v) :: rest, mk => if k = mk then storeErase rest mk else (k, v) :: storeErase rest mk

/-- The link set of an existing partition as `upsert_archive` line 358
computes it: links of the parsed lines, skipping falsy (empty or
missing) ones. -/
def existingLinks (existing : List Item) : List String :=
  (existing.filter (fun x => x.link != "")).map (fun x => x.link)

/-- The admission loop of `upsert_archive` (collect.py lines 361-366):
walk the candidates for one month, keep an item only when its link is
not yet in `seen`, and add admitted links to `seen` immediately.  The
Python `set` is modelled as a list used only through membership and
insertion. -/
def admitItems : List String → List Item → List Item
  | _, [] => []
  | seen, it :: rest =>
      if it.link ∈ seen then admitItems seen rest
      else it :: admitItems (it.link :: seen) rest

/-- Insertion step of a stable descending sort on `pubDate`: the new
item goes in front of the first strictly older entry, after all
entries at least as new. -/
def insDesc : List Item → Item → List Item
  | [], it => [it]
  | x :: xs, it => if strLt x.pubDate it.pubDate then it :: x :: xs else x :: insDesc xs it

/-- `merged.sort(key=pubDate, reverse=True)` of collect.py line 372: a
stable sort, descending on the `pubDate` string, realised as an
insertion sort processing items in their original order. -/
def sortPubDesc (l : List Item) : List Item :=
  l.foldl insDesc []

/-- Appending an item to its month bucket, the
`by_month.setdefault(mk, []).append(it)` of collect.py line 350.  An
absent key is created at the end of the dict, preserving insertion
order. -/
def insertGroup : List (String × List Item) → String → Item → List (String × List Item)
  | [], mk, it => [(mk, [it])]
  | (k, v) :: rest, mk, it =>
      if k = mk then (k, v ++ [it]) :: rest
      else (k, v) :: insertGroup rest mk it

/-- The grouping loop of `upsert_archive` (collect.py lines 346-350):
bucket each item by its month key; a `pubDate` that fails to parse
makes the whole run raise, modelled as `none`. -/
def groupByMonth : List Item → List (String × List Item) → Option (List (String × List Item))
  | [], acc => some acc
  | it :: rest, acc =>
      match monthKeyOfItem it with
      | none => none
      | some mk => groupByMonth rest (insertGroup acc mk it)

/-- The per-month body of `upsert_archive` (collect.py lines 354-374),
acting on the store: read the existing partition, build the rejection
set from its non-empty links and the latest-window links, admit the
surviving candidates, and rewrite the partition (existing then
admitted, sorted descending) only when at least one candidate was
admitted. -/
def upsertMonths (latest : List String) : List (String × List Item) → Store → Store × Nat
  | [], st => (st, 0)
  | (mk, arr) :: rest, st =>
      let existing := (storeGet st mk).getD []
      let newItems := admitItems (existingLinks existing ++ latest) arr
      if newItems.isEmpty then upsertMonths latest rest st
      else
        let merged := sortPubDesc (existing ++ newItems)
        let res := upsertMonths latest rest (storeSet st mk merged)
        (res.1, newItems.length + res.2)

/-- `upsert_archive` (collect.py lines 343-376) as a function of the
collected batch, the links read from the latest-window file
(`read_latest_links`), and the archive store; it returns the updated
store and the count of newly persisted items, or `none` when a
`pubDate` fails to parse. -/
def upsert_archive (items : List Item) (latest : List String) (st : Store) : Option (Store × Nat) :=
  (groupByMonth items []).map (fun groups => upsertMonths latest groups st)

/-- The per-month outcome `upsert_archive` leaves at one key, used to
state what a run does partition by partition. -/
def monthResult (latest : List String) (st : Store) (mk : String) (arr : List Item) : Option (List Item) :=
  let existing := (storeGet st mk).getD []
  let newItems := admitItems (existingLinks existing ++ latest) arr
  if newItems.isEmpty then storeGet st mk
  else some (sortPubDesc (existing ++ newItems))

/-- The links recorded in the partition file at `mk`. -/
def partitionLinks (st : Store) (mk : String) : List String :=
  ((storeGet st mk).getD []).map (fun x => x.link)

/-- `KEEP_YEARS` (collect.py line 26). -/
def KEEP_YEARS : Int := 5

/-- Splitting a character list on a separator, as Python
`str.split(sep)` does: every occurrence of the separator starts a new
(possibly empty) segment. -/
def splitOnChar (sep : Char) : List Char → List (List Char)
  | [] => [[]]
  | c :: rest =>
      match splitOnChar sep rest with
      | [] => [[c]]
      | seg :: segs =>
          if c = sep then [] :: seg :: segs else (c :: seg) :: segs

/-- Accumulating decimal parse of a digit run. -/
def digitsToNatCore : Nat → List Char → Option Nat
  | acc, [] => some acc
  | acc, c :: rest =>
      match digitVal c with
      | none => none
      | some d => digitsToNatCore (10 * acc + d) rest

/-- Python `int(...)` on a month-key fragment: a non-empty run of
decimal digits (signs and surrounding whitespace never occur in the
keys the collector writes); anything else raises, modelled as
`none`. -/
def pyInt (l : List Char) : Option Int :=
  match l with
  | [] => none
  | _ => (digitsToNatCore 0 l).map Int.ofNat

/-- Parse of a month key `YYYY-MM` as `prune_old_archives` does it
(collect.py lines 400-401): split on the dash, then integer-parse both
parts; any other shape raises, modelled as `none`. -/
def parseMonthKey (mk : String) : Option (Int × Int) :=
  match splitOnChar '-' mk.data with
  | [y, m] => do
      let yi ← pyInt y
      let mi ← pyInt m
      pure (yi, mi)
  | _ => none

/-- Comparison of two first-of-month JST instants, as the
`datetime(y, m, 1, JST) < datetime(cy, cm, 1, JST)` of collect.py line
402 decides it: lexicographic on (year, month). -/
def monthStartLt (a b : Int × Int) : Bool :=
  decide (a.1 < b.1) || (decide (a.1 = b.1) && decide (a.2 < b.2))

/-- First occurrences of a list of strings (the `set(months)` step of
`list_months_in_archive`, which only feeds a sort and a membership
walk). -/
def removeDupStr : List String → List String → List String
  | _, [] => []
  | seen, x :: xs =>
      if x ∈ seen then removeDupStr seen xs
      else x :: removeDupStr (x :: seen) xs

/-- Insertion step of an ascending string sort. -/
def insertAsc (s : String) : List String → List String
  | [] => [s]
  | x :: xs => if strLe s x then s :: x :: xs else x :: insertAsc s xs

/-- Ascending sort of strings (`sorted(...)`). -/
def sortStrAsc (l : List String) : List String :=
  l.foldr insertAsc []

/-- `list_months_in_archive` (collect.py lines 379-390) at the store
level: the sorted distinct month keys that have a partition file. -/
def list_months_in_archive (st : Store) : List String :=
  sortStrAsc (removeDupStr [] (st.map (fun e => e.1)))

/-- The deletion loop of `prune_old_archives` (collect.py lines
398-407): walk the months, parse each key (a malformed key raises,
modelled as `none` for the run), and unlink the partition when its
first-of-month instant is strictly before the cutoff month start. -/
def pruneFold (cutoff : Int × Int) : List String → Store → Option Store
  | [], st => some st
  | mk :: rest, st =>
      match parseMonthKey mk with
      | none => none
      | some ym =>
          pruneFold cutoff rest (if monthStartLt ym cutoff then storeErase st mk else st)

/-- `prune_old_archives` (collect.py lines 393-407) as a function of
the current JST year and month and the store.  The cutoff is `now_jst`
minus `KEEP_YEARS` years truncated to the first of its month, which is
the pair (year - KEEP_YEARS, month): `relativedelta(years=k)` keeps
the month (clamping only the day, which the truncation discards).
Removal of emptied year directories (lines 409-414) is below the store
abstraction and is not modelled. -/
def prune_old_archives (nowYear nowMonth : Int) (st : Store) : Option Store :=
  pruneFold (nowYear - KEEP_YEARS, nowMonth) (list_months_in_archive st) st

/-- Fixture: a feed item used in concrete instances. -/
def itemA : Item :=
  { title := "A", link := "L", pubDate := "2026-01-01T00:00:00Z", source := "s1", category := "c" }

/-- Fixture: a second item with the same link and the same `pubDate` as
`itemA` but a different title. -/
def itemB : Item :=
  { title := "B", link := "L", pubDate := "2026-01-01T00:00:00Z", source := "s2", category := "c" }

/-- Fixture: an item with the same link as `itemA` and a strictly newer
`pubDate`. -/
def itemC : Item :=
  { title := "C", link := "L", pubDate := "2026-02-01T00:00:00Z", source := "s2", category := "c" }

/-- Fixture: an item with a different link. -/
def itemD : Item :=
  { title := "D", link := "M", pubDate := "2026-01-10T00:00:00Z", source := "s3", category := "c" }

/-- C1 counterexample: the save operation of the revalidation cache does
not follow the temporary-file-then-rename discipline the claim states:
its trace is a single direct write to the target file. -/
theorem claim_C1_counterexample :
    ¬ atomicReplace (save_http_cache_ops "x") HTTP_CACHE_FILE := by
  rintro ⟨tmp, content, hne, heq⟩
  simp [save_http_cache_ops] at heq

/-- C1 amended: `save_http_cache` writes the whole mapping directly to
the target cache file in a single write, with no temporary file and no
rename; the partition writer `write_ndjson_gz` is the routine that
writes to a temporary path and renames it over the target. -/
theorem claim_C1_amended :
    (∀ serialized : String,
        save_http_cache_ops serialized = [FsOp.write HTTP_CACHE_FILE serialized]) ∧
    (∀ path serialized : String,
        atomicReplace (write_ndjson_gz_ops path serialized) path) := by
  refine ⟨fun _ => rfl, fun path serialized => ⟨path ++ ".tmp", serialized, ?_, rfl⟩⟩
  intro h
  have hlen := congrArg String.length h
  rw [String.length_append] at hlen
  have : ".tmp".length = 4 := rfl
  omega

/-- C10: `load_http_cache` returns the empty mapping when the cache
file is missing, when the file exists but cannot be read, when its
contents are not valid JSON, and when it parses to JSON null; the
embedding is a total function into JSON values, so no cache-file state
raises or aborts the run. -/
theorem claim_C10 :
    load_http_cache CacheFileState.missing = Json.obj [] ∧
    load_http_cache CacheFileState.unreadable = Json.obj [] ∧
    load_http_cache CacheFileState.malformed = Json.obj [] ∧
    load_http_cache (CacheFileState.parsed Json.null) = Json.obj [] :=
  ⟨rfl, rfl, rfl, rfl⟩

/-- C6: on a 304 response the fetch yields the not-modified signal (no
feed, hence no items for that source) and the stored revalidation
record is exactly the cached one with `lastStatus` set to 304 and
`lastCheckedAt` set to the current reading: `entityTag` and
`lastModifiedHeader` are left untouched. -/
theorem claim_C6 (cache : CacheRec) (etagHeader lastModifiedHeader : Option String)
    (body now : String) :
    (fetch_feed cache (.ok 304 etagHeader lastModifiedHeader body) now).feed = none ∧
    (fetch_feed cache (.ok 304 etagHeader lastModifiedHeader body) now).record =
      { cache with lastStatus := some 304, lastChecked := some now } :=
  ⟨rfl, rfl⟩

/-- C9: when the fetch fails - a transport exception, or a status of
400 or above raised by `raise_for_status` - the stored revalidation
record is exactly the cached one with `lastStatus` set to the sentinel
-1 and `lastCheckedAt` set to the current reading: the cached
`entityTag` and `lastModifiedHeader` survive the failure, and no feed
is returned. -/
theorem claim_C9 :
    (∀ (cache : CacheRec) (msg now : String),
        (fetch_feed cache (.exn msg) now).feed = none ∧
        (fetch_feed cache (.exn msg) now).record =
          { cache with lastStatus := some (-1), lastChecked := some now }) ∧
    (∀ (cache : CacheRec) (status : Nat) (etagHeader lastModifiedHeader : Option String)
        (body now : String), 400 ≤ status →
        (fetch_feed cache (.ok status etagHeader lastModifiedHeader body) now).feed = none ∧
        (fetch_feed cache (.ok status etagHeader lastModifiedHeader body) now).record =
          { cache with lastStatus := some (-1), lastChecked := some now }) := by
  refine ⟨fun cache msg now => ⟨rfl, rfl⟩, fun cache status eh lh body now h => ?_⟩
  have h304 : ¬ status = 304 := by omega
  constructor <;> simp [fetch_feed, h304, h]

/-- C9 witness: a concrete 404 failure preserves concrete cached
validators. -/
theorem claim_C9_witness :
    (fetch_feed
        { etag := some "W1", lastModified := some "Mon", lastStatus := some 200,
          lastChecked := some "t0" }
        (.ok 404 none none "") "t1").record =
      { etag := some "W1", lastModified := some "Mon", lastStatus := some (-1),
        lastChecked := some "t1" } :=
  (claim_C9.2
    { etag := some "W1", lastModified := some "Mon", lastStatus := some 200,
      lastChecked := some "t0" }
    404 none none "" "t1" (by decide)).2

theorem charToNat_inj {a b : Char} (h : a.toNat = b.toNat) : a = b :=
  Char.ext (UInt32.ext_iff.mpr h)

theorem stringData_inj {s t : String} (h : s.data = t.data) : s = t := by
  cases s
  cases t
  exact congrArg String.mk h

theorem listLt_irrefl (l : List Char) : listLt l l = false := by
  induction l with
  | nil => rfl
  | cons c cs ih => simp [listLt, ih]

theorem listLt_trans {a b c : List Char} (h1 : listLt a b = true) (h2 : listLt b c = true) :
    listLt a c = true := by
  induction a generalizing b c with
  | nil =>
      cases c with
      | nil =>
          cases b with
          | nil => simp [listLt] at h2
          | cons y ys => simp [listLt] at h2
      | cons z zs => simp [listLt]
  | cons x xs ih =>
      cases b with
      | nil => simp [listLt] at h1
      | cons y ys =>
          cases c with
          | nil => simp [listLt] at h2
          | cons z zs =>
              simp only [listLt] at h1 h2 ⊢
              by_cases hxy : x.toNat < y.toNat
              · by_cases hyz : y.toNat < z.toNat
                · have hxz : x.toNat < z.toNat := Nat.lt_trans hxy hyz
                  simp [hxz]
                · by_cases hzy : z.toNat < y.toNat
                  · rw [if_neg hyz, if_pos hzy] at h2
                    cases h2
                  · have hyz2 : y.toNat = z.toNat := by omega
                    have hxz : x.toNat < z.toNat := by omega
                    simp [hxz]
              · by_cases hyx : y.toNat < x.toNat
                · rw [if_neg hxy, if_pos hyx] at h1
                  cases h1
                · have hxy2 : x.toNat = y.toNat := by omega
                  rw [if_neg hxy, if_neg hyx] at h1
                  by_cases hyz : y.toNat < z.toNat
                  · have hxz : x.toNat < z.toNat := by omega
                    simp [hxz]
                  · by_cases hzy : z.toNat < y.toNat
                    · rw [if_neg hyz, if_pos hzy] at h2
                      cases h2
                    · rw [if_neg hyz, if_neg hzy] at h2
                      have hxz : ¬ x.toNat < z.toNat := by omega
                      have hzx : ¬ z.toNat < x.toNat := by omega
                      simp only [if_neg hxz, if_neg hzx]
                      exact ih h1 h2

theorem listLt_conn {a b : List Char} (h1 : listLt a b = false) (h2 : listLt b a = false) :
    a = b := by
  induction a generalizing b with
  | nil =>
      cases b with
      | nil => rfl
      | cons y ys => simp [listLt] at h1
  | cons x xs ih =>
      cases b with
      | nil => simp [listLt] at h2
      | cons y ys =>
          simp only [listLt] at h1 h2
          by_cases hxy : x.toNat < y.toNat
          · rw [if_pos hxy] at h1
            cases h1
          · by_cases hyx : y.toNat < x.toNat
            · rw [if_pos hyx] at h2
              cases h2
            · rw [if_neg hxy, if_neg hyx] at h1
              rw [if_neg hyx, if_neg hxy] at h2
              have hc : x = y := charToNat_inj (by omega)
              rw [hc, ih h1 h2]

theorem strLt_irrefl (s : String) : strLt s s = false :=
  listLt_irrefl s.data

theorem strLt_trans {a b c : String} (h1 : strLt a b = true) (h2 : strLt b c = true) :
    strLt a c = true :=
  listLt_trans h1 h2

theorem strLt_conn {a b : String} (h1 : strLt a b = false) (h2 : strLt b a = false) :
    a = b :=
  stringData_inj (listLt_conn h1 h2)

theorem strLt_asymm {a b : String} (h : strLt a b = true) : strLt b a = false := by
  cases hc : strLt b a with
  | false => rfl
  | true =>
      have := strLt_trans h hc
      rw [strLt_irrefl] at this
      cases this

theorem strLt_lt_le {x y z : String} (h1 : strLt x y = true) (h2 : strLt z y = false) :
    strLt z x = false := by
  cases hc : strLt z x with
  | false => rfl
  | true =>
      have := strLt_trans hc h1
      rw [h2] at this
      cases this

theorem strLt_le_trans {x y z : String} (h1 : strLt y x = false) (h2 : strLt z y = false) :
    strLt z x = false := by
  cases hc : strLt z x with
  | false => rfl
  | true =>
      by_cases hxy : strLt x y = true
      · have := strLt_trans hc hxy
        rw [h2] at this
        cases this
      · have hx : x = y := strLt_conn (Bool.not_eq_true _ ▸ hxy : strLt x y = false) h1
        rw [hx] at hc
        rw [h2] at hc
        cases hc

theorem lookupLink_dedupeUpd (best : List (String × Item)) (it : Item) (lk : String) :
    lookupLink (dedupeUpd best it) lk =
      if it.link = lk then ostep (lookupLink best lk) it else lookupLink best lk := by
  induction best with
  | nil =>
      by_cases h : it.link = lk <;> simp [dedupeUpd, lookupLink, ostep, h]
  | cons hd tl ih =>
      obtain ⟨k, v⟩ := hd
      simp only [dedupeUpd]
      by_cases hk : k = it.link
      · rw [if_pos hk]
        by_cases hlk : k = lk
        · have hil : it.link = lk := hk ▸ hlk
          by_cases hp : strLt v.pubDate it.pubDate = true
          · rw [if_pos hp]
            simp [lookupLink, hlk, hil, ostep, hp]
          · rw [if_neg hp]
            have hp2 : strLt v.pubDate it.pubDate = false := Bool.not_eq_true _ ▸ hp
            simp [lookupLink, hlk, hil, ostep, hp2]
        · have hil : ¬ it.link = lk := fun h => hlk (hk.trans h)
          by_cases hp : strLt v.pubDate it.pubDate = true
          · rw [if_pos hp]
            simp [lookupLink, hlk, hil]
          · rw [if_neg hp]
            simp [lookupLink, hlk, hil]
      · rw [if_neg hk]
        by_cases hlk : k = lk
        · have hil : ¬ it.link = lk := fun h => hk (hlk.trans h.symm)
          simp [lookupLink, hlk, hil]
        · simp [lookupLink, hlk, ih]

theorem lookupLink_foldl (l : List Item) (best : List (String × Item)) (lk : String) :
    lookupLink (l.foldl dedupeUpd best) lk =
      (l.filter (fun it => it.link == lk)).foldl ostep (lookupLink best lk) := by
  induction l generalizing best with
  | nil => rfl
  | cons hd tl ih =>
      by_cases h : hd.link = lk
      · have hb : (hd.link == lk) = true := by simp [h]
        simp only [List.foldl_cons, List.filter_cons, hb, if_pos]
        rw [ih]
        simp [lookupLink_dedupeUpd, h]
      · have hb : (hd.link == lk) = false := by simp [h]
        simp only [List.foldl_cons, List.filter_cons, hb, Bool.false_eq_true, if_false]
        rw [ih]
        simp [lookupLink_dedupeUpd, h]

theorem lookupLink_dedupe (l : List Item) (lk : String) :
    lookupLink (dedupe l) lk =
      (l.filter (fun it => it.link == lk)).foldl ostep none := by
  simpa [dedupe, lookupLink] using lookupLink_foldl l [] lk

theorem foldl_ostep_some_spec (l : List Item) (v : Item) (m : Item)
    (h : l.foldl ostep (some v) = some m) :
    (m = v ∨ m ∈ l) ∧ strLt m.pubDate v.pubDate = false ∧
      ∀ b ∈ l, strLt m.pubDate b.pubDate = false := by
  induction l generalizing v with
  | nil =>
      simp only [List.foldl_nil, Option.some.injEq] at h
      subst h
      simp [strLt_irrefl]
  | cons hd tl ih =>
      simp only [List.foldl_cons, ostep] at h
      by_cases hp : strLt v.pubDate hd.pubDate = true
      · rw [if_pos hp] at h
        obtain ⟨h1, h2, h3⟩ := ih hd h
        refine ⟨?_, strLt_lt_le hp h2, ?_⟩
        · rcases h1 with h1 | h1
          · exact Or.inr (by simp [h1])
          · exact Or.inr (List.mem_cons_of_mem _ h1)
        · intro b hb
          rcases List.mem_cons.mp hb with hb | hb
          · exact hb ▸ h2
          · exact h3 b hb
      · have hp2 : strLt v.pubDate hd.pubDate = false := Bool.not_eq_true _ ▸ hp
        rw [if_neg hp] at h
        obtain ⟨h1, h2, h3⟩ := ih v h
        refine ⟨?_, h2, ?_⟩
        · rcases h1 with h1 | h1
          · exact Or.inl h1
          · exact Or.inr (List.mem_cons_of_mem _ h1)
        · intro b hb
          rcases List.mem_cons.mp hb with hb | hb
          · exact hb ▸ strLt_le_trans hp2 h2
          · exact h3 b hb

theorem foldl_ostep_none_some (l : List Item) (m : Item)
    (h : l.foldl ostep none = some m) :
    m ∈ l ∧ ∀ b ∈ l, strLt m.pubDate b.pubDate = false := by
  cases l with
  | nil => simp at h
  | cons hd tl =>
      simp only [List.foldl_cons, ostep] at h
      obtain ⟨h1, h2, h3⟩ := foldl_ostep_some_spec tl hd m h
      refine ⟨?_, ?_⟩
      · rcases h1 with h1 | h1
        · simp [h1]
        · exact List.mem_cons_of_mem _ h1
      · intro b hb
        rcases List.mem_cons.mp hb with hb | hb
        · exact hb ▸ h2
        · exact h3 b hb

theorem foldl_ostep_isSome (l : List Item) (acc : Option Item) (hne : acc.isSome ∨ l ≠ []) :
    (l.foldl ostep acc).isSome := by
  induction l generalizing acc with
  | nil =>
      rcases hne with hne | hne
      · simpa using hne
      · simp at hne
  | cons hd tl ih =>
      simp only [List.foldl_cons]
      refine ih (ostep acc hd) (Or.inl ?_)
      cases acc with
      | none => simp [ostep]
      | some v =>
          by_cases hp : strLt v.pubDate hd.pubDate = true <;> simp [ostep, hp]

/-- C4 counterexample: two distinct items with the same link and the
same canonical timestamp, fed in the two possible orders, are
permutations of each other yet dedupe to different mappings: the code
keeps the first-seen item on a timestamp tie, so input order leaks
into the result. -/
theorem claim_C4_counterexample :
    [itemA, itemB].Perm [itemB, itemA] ∧
    lookupLink (dedupe [itemA, itemB]) "L" ≠ lookupLink (dedupe [itemB, itemA]) "L" := by
  constructor
  · exact List.Perm.swap itemB itemA []
  · decide

/-- C4 amended: the batch deduplicator is deterministic over multisets
of items in which no two distinct items carry both the same link and
the same canonical timestamp string (the code resolves such ties by
input order); under that proviso any two permuted input lists produce
the same link-to-item mapping. -/
theorem claim_C4 (l1 l2 : List Item)
    (htie : ∀ a ∈ l1, ∀ b ∈ l1, a.link = b.link → a.pubDate = b.pubDate → a = b)
    (hperm : l1.Perm l2) (lk : String) :
    lookupLink (dedupe l1) lk = lookupLink (dedupe l2) lk := by
  rw [lookupLink_dedupe, lookupLink_dedupe]
  have hf : (l1.filter (fun it => it.link == lk)).Perm (l2.filter (fun it => it.link == lk)) :=
    hperm.filter _
  by_cases hnil : l1.filter (fun it => it.link == lk) = []
  · have hnil2 : l2.filter (fun it => it.link == lk) = [] := by
      have := hf
      rw [hnil] at this
      exact this.symm.eq_nil
    rw [hnil, hnil2]
  · have hnil2 : l2.filter (fun it => it.link == lk) ≠ [] := by
      intro h
      rw [h] at hf
      exact hnil hf.eq_nil
    have hs1 := foldl_ostep_isSome (l1.filter (fun it => it.link == lk)) none (Or.inr hnil)
    have hs2 := foldl_ostep_isSome (l2.filter (fun it => it.link == lk)) none (Or.inr hnil2)
    obtain ⟨m1, hc1⟩ := Option.isSome_iff_exists.mp hs1
    obtain ⟨m2, hc2⟩ := Option.isSome_iff_exists.mp hs2
    rw [hc1, hc2]
    obtain ⟨hm1, hmax1⟩ := foldl_ostep_none_some _ _ hc1
    obtain ⟨hm2, hmax2⟩ := foldl_ostep_none_some _ _ hc2
    have hm2f1 : m2 ∈ l1.filter (fun it => it.link == lk) := hf.mem_iff.mpr hm2
    have hm1f2 : m1 ∈ l2.filter (fun it => it.link == lk) := hf.mem_iff.mp hm1
    have hm1l : m1 ∈ l1 := (List.mem_filter.mp hm1).1
    have hm2l : m2 ∈ l1 := (List.mem_filter.mp hm2f1).1
    have hlink1 : m1.link = lk := by
      have := (List.mem_filter.mp hm1).2
      simpa using this
    have hlink2 : m2.link = lk := by
      have := (List.mem_filter.mp hm2f1).2
      simpa using this
    have hle1 : strLt m2.pubDate m1.pubDate = false := hmax2 m1 hm1f2
    have hle2 : strLt m1.pubDate m2.pubDate = false := hmax1 m2 hm2f1
    have heqp : m1.pubDate = m2.pubDate := strLt_conn hle2 hle1
    rw [htie m1 hm1l m2 hm2l (hlink1.trans hlink2.symm) heqp]

/-- C4 witness: two permuted tie-free lists dedupe to the same entry at
a concrete link. -/
theorem claim_C4_witness :
    lookupLink (dedupe [itemA, itemC]) "L" = lookupLink (dedupe [itemC, itemA]) "L" :=
  claim_C4 [itemA, itemC] [itemC, itemA] (by decide) (by decide) "L"

/-- C5: the item the batch deduplicator keeps for a link is one of the
input items with that link, and no input item with that link has a
canonical timestamp string lexicographically greater than the kept one
(so the kept timestamp is the greatest); in particular, for two items
sharing a link with timestamps T1 strictly below T2, either input
order keeps exactly the T2 item, with its title. -/
theorem claim_C5 :
    (∀ (items : List Item) (lk : String) (it : Item),
        lookupLink (dedupe items) lk = some it →
        it ∈ items ∧ it.link = lk ∧
          ∀ b ∈ items, b.link = lk → strLt it.pubDate b.pubDate = false) ∧
    (∀ i1 i2 : Item, i1.link = i2.link → strLt i1.pubDate i2.pubDate = true →
        lookupLink (dedupe [i1, i2]) i2.link = some i2 ∧
        lookupLink (dedupe [i2, i1]) i2.link = some i2) := by
  constructor
  · intro items lk it h
    rw [lookupLink_dedupe] at h
    obtain ⟨hm, hmax⟩ := foldl_ostep_none_some _ _ h
    have hml : it ∈ items := (List.mem_filter.mp hm).1
    have hlink : it.link = lk := by
      have := (List.mem_filter.mp hm).2
      simpa using this
    refine ⟨hml, hlink, ?_⟩
    intro b hb hbl
    exact hmax b (List.mem_filter.mpr ⟨hb, by simp [hbl]⟩)
  · intro i1 i2 hlink hlt
    have hasym : strLt i2.pubDate i1.pubDate = false := strLt_asymm hlt
    constructor
    · show lookupLink (dedupeUpd (dedupeUpd [] i1) i2) i2.link = some i2
      simp [dedupeUpd, hlink, hlt, lookupLink]
    · show lookupLink (dedupeUpd (dedupeUpd [] i2) i1) i2.link = some i2
      simp [dedupeUpd, hlink.symm, hasym, lookupLink]

/-- C5 witness: with two concrete same-link items whose timestamps
differ, the kept item is the newer one in either order, it is maximal,
and it carries the newer title. -/
theorem claim_C5_witness :
    lookupLink (dedupe [itemA, itemC]) "L" = some itemC ∧
    lookupLink (dedupe [itemC, itemA]) "L" = some itemC ∧
    itemC ∈ [itemA, itemC] ∧ itemC.link = "L" ∧
    strLt itemC.pubDate itemA.pubDate = false ∧ itemC.title = "C" := by
  have hs := claim_C5.2 itemA itemC (by decide) (by decide)
  have hchar := claim_C5.1 [itemA, itemC] "L" itemC (by decide)
  exact ⟨hs.1, hs.2, hchar.1, hchar.2.1, hchar.2.2 itemA (by decide) (by decide), by decide⟩

theorem storeGet_storeSet_self (st : Store) (mk : String) (v : List Item) :
    storeGet (storeSet st mk v) mk = some v := by
  induction st with
  | nil => simp [storeSet, storeGet]
  | cons hd tl ih =>
      obtain ⟨k, w⟩ := hd
      by_cases hk : k = mk
      · simp [storeSet, storeGet, hk]
      · simp [storeSet, storeGet, hk, ih]

theorem storeGet_storeSet_ne (st : Store) (mk mk2 : String) (v : List Item) (h : mk ≠ mk2) :
    storeGet (storeSet st mk v) mk2 = storeGet st mk2 := by
  induction st with
  | nil => simp [storeSet, storeGet, h]
  | cons hd tl ih =>
      obtain ⟨k, w⟩ := hd
      by_cases hk : k = mk
      · subst hk
        simp [storeSet, storeGet, h]
      · simp [storeSet, storeGet, hk, ih]

theorem admitItems_sub (arr : List Item) :
    ∀ (seen : List String) (it : Item), it ∈ admitItems seen arr → it ∈ arr := by
  induction arr with
  | nil => intro seen it h; simp [admitItems] at h
  | cons hd tl ih =>
      intro seen it h
      simp only [admitItems] at h
      by_cases hs : hd.link ∈ seen
      · rw [if_pos hs] at h
        exact List.mem_cons_of_mem _ (ih seen it h)
      · rw [if_neg hs] at h
        rcases List.mem_cons.mp h with h | h
        · exact h ▸ List.mem_cons_self _ _
        · exact List.mem_cons_of_mem _ (ih _ it h)

theorem admitItems_notin_seen (arr : List Item) :
    ∀ (seen : List String) (it : Item), it ∈ admitItems seen arr → it.link ∉ seen := by
  induction arr with
  | nil => intro seen it h; simp [admitItems] at h
  | cons hd tl ih =>
      intro seen it h
      simp only [admitItems] at h
      by_cases hs : hd.link ∈ seen
      · rw [if_pos hs] at h
        exact ih seen it h
      · rw [if_neg hs] at h
        rcases List.mem_cons.mp h with h | h
        · exact h ▸ hs
        · intro hc
          exact ih _ it h (List.mem_cons_of_mem _ hc)

theorem admitItems_links_nodup (arr : List Item) :
    ∀ seen : List String, ((admitItems seen arr).map (fun x => x.link)).Nodup := by
  induction arr with
  | nil => intro seen; simp [admitItems]
  | cons hd tl ih =>
      intro seen
      simp only [admitItems]
      by_cases hs : hd.link ∈ seen
      · rw [if_pos hs]
        exact ih seen
      · rw [if_neg hs]
        simp only [List.map_cons, List.nodup_cons]
        refine ⟨?_, ih _⟩
        intro hc
        obtain ⟨b, hb, hbl⟩ := List.mem_map.mp hc
        exact admitItems_notin_seen tl _ b hb (hbl ▸ List.mem_cons_self _ _)

theorem admitItems_of_all_seen (arr : List Item) (seen : List String)
    (h : ∀ it ∈ arr, it.link ∈ seen) : admitItems seen arr = [] := by
  induction arr with
  | nil => rfl
  | cons hd tl ih =>
      have hs : hd.link ∈ seen := h hd (List.mem_cons_self _ _)
      simp only [admitItems, if_pos hs]
      exact ih (fun it hit => h it (List.mem_cons_of_mem _ hit))

theorem admitItems_eq_nil_all_seen (arr : List Item) :
    ∀ seen : List String, admitItems seen arr = [] → ∀ it ∈ arr, it.link ∈ seen := by
  induction arr with
  | nil => simp
  | cons hd tl ih =>
      intro seen h it hit
      simp only [admitItems] at h
      by_cases hs : hd.link ∈ seen
      · rw [if_pos hs] at h
        rcases List.mem_cons.mp hit with hh | hh
        · exact hh ▸ hs
        · exact ih seen h it hh
      · rw [if_neg hs] at h
        cases h

theorem admitItems_mem_or (arr : List Item) :
    ∀ (seen : List String) (it : Item), it ∈ arr →
      it.link ∈ seen ∨ it.link ∈ (admitItems seen arr).map (fun x => x.link) := by
  induction arr with
  | nil => simp
  | cons hd tl ih =>
      intro seen it hit
      simp only [admitItems]
      by_cases hs : hd.link ∈ seen
      · rw [if_pos hs]
        rcases List.mem_cons.mp hit with hh | hh
        · exact Or.inl (hh ▸ hs)
        · exact ih seen it hh
      · rw [if_neg hs]
        rcases List.mem_cons.mp hit with hh | hh
        · exact Or.inr (by simp [hh])
        · rcases ih (hd.link :: seen) it hh with h | h
          · rcases List.mem_cons.mp h with h | h
            · exact Or.inr (by simp [h])
            · exact Or.inl h
          · exact Or.inr (by simp [h])

theorem insDesc_perm (l : List Item) (it : Item) : (insDesc l it).Perm (it :: l) := by
  induction l with
  | nil => simp [insDesc]
  | cons x xs ih =>
      simp only [insDesc]
      by_cases hp : strLt x.pubDate it.pubDate = true
      · rw [if_pos hp]
      · rw [if_neg hp]
        exact (ih.cons x).trans (List.Perm.swap it x xs)

theorem foldl_insDesc_perm (l : List Item) :
    ∀ acc : List Item, (l.foldl insDesc acc).Perm (acc ++ l) := by
  induction l with
  | nil => intro acc; simp
  | cons hd tl ih =>
      intro acc
      simp only [List.foldl_cons]
      refine (ih (insDesc acc hd)).trans ?_
      refine ((insDesc_perm acc hd).append_right tl).trans ?_
      exact List.perm_middle.symm

theorem sortPubDesc_perm (l : List Item) : (sortPubDesc l).Perm l := by
  simpa [sortPubDesc] using foldl_insDesc_perm l []

theorem mem_existingLinks {l : String} {xs : List Item} :
    l ∈ existingLinks xs ↔ ∃ a, a ∈ xs ∧ a.link = l ∧ l ≠ "" := by
  simp only [existingLinks, List.mem_map, List.mem_filter, bne_iff_ne, ne_eq]
  constructor
  · rintro ⟨a, ⟨ha, hne⟩, hl⟩
    exact ⟨a, ha, hl, hl ▸ hne⟩
  · rintro ⟨a, ha, hl, hne⟩
    refine ⟨a, ⟨ha, ?_⟩, hl⟩
    rw [hl]
    exact hne

theorem storeGet_insertGroup (acc : List (String × List Item)) (mk0 : String) (it : Item)
    (mk : String) :
    (storeGet (insertGroup acc mk0 it) mk).getD [] =
      (storeGet acc mk).getD [] ++ (if mk0 = mk then [it] else []) := by
  induction acc with
  | nil =>
      by_cases h : mk0 = mk <;> simp [insertGroup, storeGet, h]
  | cons hd tl ih =>
      obtain ⟨k, v⟩ := hd
      simp only [insertGroup]
      by_cases hk : k = mk0
      · rw [if_pos hk]
        by_cases hm : k = mk
        · have he : mk0 = mk := hk ▸ hm
          simp [storeGet, hm, he]
        · have hne : ¬ mk0 = mk := fun h => hm (hk.trans h)
          simp [storeGet, hm, hne]
      · rw [if_neg hk]
        by_cases hm : k = mk
        · have hne : ¬ mk0 = mk := fun h => hk (hm.trans h.symm)
          simp [storeGet, hm, hne]
        · simp [storeGet, hm, ih]

theorem insertGroup_keys (acc : List (String × List Item)) (mk0 : String) (it : Item) :
    (insertGroup acc mk0 it).map (fun e => e.1) =
      if mk0 ∈ acc.map (fun e => e.1) then acc.map (fun e => e.1)
      else acc.map (fun e => e.1) ++ [mk0] := by
  induction acc with
  | nil => simp [insertGroup]
  | cons hd tl ih =>
      obtain ⟨k, v⟩ := hd
      simp only [insertGroup, List.map_cons]
      by_cases hk : k = mk0
      · rw [if_pos hk]
        have hm : mk0 ∈ k :: tl.map (fun e => e.1) := hk ▸ List.mem_cons_self _ _
        rw [if_pos hm]
        simp
      · rw [if_neg hk]
        by_cases hin : mk0 ∈ tl.map (fun e => e.1)
        · have hm : mk0 ∈ k :: tl.map (fun e => e.1) := List.mem_cons_of_mem _ hin
          rw [if_pos hm]
          simp only [List.map_cons, ih, if_pos hin]
        · have hm : mk0 ∉ k :: tl.map (fun e => e.1) := by
            intro hc
            rcases List.mem_cons.mp hc with hc | hc
            · exact hk hc.symm
            · exact hin hc
          rw [if_neg hm]
          simp only [List.map_cons, ih, if_neg hin]
          rfl

theorem insertGroup_keys_nodup (acc : List (String × List Item)) (mk0 : String) (it : Item)
    (h : (acc.map (fun e => e.1)).Nodup) :
    ((insertGroup acc mk0 it).map (fun e => e.1)).Nodup := by
  rw [insertGroup_keys]
  by_cases hin : mk0 ∈ acc.map (fun e => e.1)
  · rw [if_pos hin]
    exact h
  · rw [if_neg hin]
    refine h.append (List.nodup_singleton _) ?_
    intro a ha hb
    rw [List.mem_singleton.mp hb] at ha
    exact hin ha

theorem groupByMonth_getD (items : List Item) :
    ∀ (acc gs : List (String × List Item)), groupByMonth items acc = some gs →
      ∀ mk, (storeGet gs mk).getD [] =
        (storeGet acc mk).getD [] ++
          items.filter (fun it => monthKeyOfItem it == some mk) := by
  induction items with
  | nil =>
      intro acc gs h mk
      simp only [groupByMonth, Option.some.injEq] at h
      subst h
      simp
  | cons hd tl ih =>
      intro acc gs h mk
      simp only [groupByMonth] at h
      cases hmk : monthKeyOfItem hd with
      | none => rw [hmk] at h; cases h
      | some mk0 =>
          rw [hmk] at h
          rw [ih _ _ h mk, storeGet_insertGroup]
          simp only [List.filter_cons]
          by_cases he : mk0 = mk
          · have hb : (monthKeyOfItem hd == some mk) = true := by
              simp [hmk, he]
            rw [hb, if_pos he]
            simp
          · have hb : (monthKeyOfItem hd == some mk) = false := by
              simp [hmk]
              intro hc
              exact he hc
            rw [hb, if_neg he]
            simp

theorem groupByMonth_keys_nodup (items : List Item) :
    ∀ acc gs, (acc.map (fun e => e.1)).Nodup → groupByMonth items acc = some gs →
      (gs.map (fun e => e.1)).Nodup := by
  induction items with
  | nil =>
      intro acc gs hnd h
      simp only [groupByMonth, Option.some.injEq] at h
      exact h ▸ hnd
  | cons hd tl ih =>
      intro acc gs hnd h
      simp only [groupByMonth] at h
      cases hmk : monthKeyOfItem hd with
      | none => rw [hmk] at h; cases h
      | some mk0 =>
          rw [hmk] at h
          exact ih _ _ (insertGroup_keys_nodup acc mk0 hd hnd) h

theorem storeGet_of_mem_nodup {gs : List (String × List Item)} {k : String} {v : List Item}
    (hnd : (gs.map (fun e => e.1)).Nodup) (hmem : (k, v) ∈ gs) : storeGet gs k = some v := by
  induction gs with
  | nil => cases hmem
  | cons hd tl ih =>
      obtain ⟨k0, v0⟩ := hd
      simp only [List.map_cons, List.nodup_cons] at hnd
      rcases List.mem_cons.mp hmem with h | h
      · obtain ⟨h1, h2⟩ := Prod.mk.injEq .. ▸ h
        simp [storeGet, h1.symm, h2]
      · by_cases hk : k0 = k
        · exfalso
          apply hnd.1
          rw [hk]
          exact List.mem_map.mpr ⟨(k, v), h, rfl⟩
        · simp only [storeGet, if_neg hk]
          exact ih hnd.2 h

theorem upsertMonths_not_mem (latest : List String) (groups : List (String × List Item)) :
    ∀ (st : Store) (mk : String), mk ∉ groups.map (fun e => e.1) →
      storeGet (upsertMonths latest groups st).1 mk = storeGet st mk := by
  induction groups with
  | nil => intro st mk _; rfl
  | cons hd tl ih =>
      obtain ⟨k, arr⟩ := hd
      intro st mk hmem
      have hk : ¬ k = mk := fun h => hmem (by simp [h])
      have hmem2 : mk ∉ tl.map (fun e => e.1) := fun h => hmem (List.mem_cons_of_mem _ h)
      simp only [upsertMonths]
      by_cases he :
          (admitItems (existingLinks ((storeGet st k).getD []) ++ latest) arr).isEmpty = true
      · rw [if_pos he]
        exact ih st mk hmem2
      · rw [if_neg he]
        rw [ih _ mk hmem2, storeGet_storeSet_ne _ _ _ _ hk]

theorem upsertMonths_storeGet (latest : List String) (groups : List (String × List Item)) :
    ∀ (st : Store) (mk : String), (groups.map (fun e => e.1)).Nodup →
      storeGet (upsertMonths latest groups st).1 mk =
        monthResult latest st mk ((storeGet groups mk).getD []) := by
  induction groups with
  | nil =>
      intro st mk _
      simp [upsertMonths, monthResult, storeGet, admitItems]
  | cons hd tl ih =>
      obtain ⟨k, arr⟩ := hd
      intro st mk hnd
      simp only [List.map_cons, List.nodup_cons] at hnd
      obtain ⟨hknot, hndtl⟩ := hnd
      by_cases hk : k = mk
      · subst hk
        simp only [upsertMonths]
        by_cases he :
            (admitItems (existingLinks ((storeGet st k).getD []) ++ latest) arr).isEmpty = true
        · rw [if_pos he]
          rw [upsertMonths_not_mem latest tl st k hknot]
          simp [monthResult, storeGet, he]
        · rw [if_neg he]
          rw [upsertMonths_not_mem latest tl _ k hknot, storeGet_storeSet_self]
          simp [monthResult, storeGet, he]
      · simp only [upsertMonths]
        by_cases he :
            (admitItems (existingLinks ((storeGet st k).getD []) ++ latest) arr).isEmpty = true
        · rw [if_pos he]
          rw [ih st mk hndtl]
          simp [monthResult, storeGet, hk]
        · rw [if_neg he]
          rw [ih _ mk hndtl]
          simp only [monthResult]
          rw [storeGet_storeSet_ne _ _ _ _ hk]
          simp [storeGet, hk]

theorem upsertMonths_all_rejected (latest : List String) (groups : List (String × List Item)) :
    ∀ st : Store,
      (∀ p ∈ groups,
        admitItems (existingLinks ((storeGet st p.1).getD []) ++ latest) p.2 = []) →
      upsertMonths latest groups st = (st, 0) := by
  induction groups with
  | nil => intro st _; rfl
  | cons hd tl ih =>
      obtain ⟨k, arr⟩ := hd
      intro st h
      have hh := h (k, arr) (List.mem_cons_self _ _)
      simp only [upsertMonths, hh, List.isEmpty_nil, if_pos]
      exact ih st (fun p hp => h p (List.mem_cons_of_mem _ hp))

/-- C7: if every candidate item of a month is rejected - its link is
already among the non-empty links of the existing partition or among
the latest-window links - then the archive upsert leaves that
partition entry exactly as it was: same contents, same existence
state, no write. -/
theorem claim_C7 (items : List Item) (latest : List String) (st st' : Store) (n : Nat)
    (hrun : upsert_archive items latest st = some (st', n)) (mk : String)
    (hrej : ∀ it ∈ items, monthKeyOfItem it = some mk →
      it.link ∈ existingLinks ((storeGet st mk).getD []) ∨ it.link ∈ latest) :
    storeGet st' mk = storeGet st mk := by
  obtain ⟨gs, hgs, hups⟩ := Option.map_eq_some'.mp hrun
  have hgnd := groupByMonth_keys_nodup items [] gs (by simp) hgs
  have harr := groupByMonth_getD items [] gs hgs mk
  simp only [storeGet, Option.getD_none, List.nil_append] at harr
  have hst : st' = (upsertMonths latest gs st).1 := by rw [hups]
  rw [hst, upsertMonths_storeGet latest gs st mk hgnd]
  have hall : ∀ it ∈ (storeGet gs mk).getD [],
      it.link ∈ existingLinks ((storeGet st mk).getD []) ++ latest := by
    intro it hit
    rw [harr] at hit
    obtain ⟨hmem, hcond⟩ := List.mem_filter.mp hit
    have hmk : monthKeyOfItem it = some mk := by simpa using hcond
    rcases hrej it hmem hmk with h | h
    · exact List.mem_append_left _ h
    · exact List.mem_append_right _ h
  have hnil := admitItems_of_all_seen _ _ hall
  simp [monthResult, hnil]

/-- C7 witness: in a run that rewrites the 2026-01 partition, the
2026-02 partition - whose only candidate is rejected through the
latest-window links - is left exactly as it was (here: nonexistent). -/
theorem claim_C7_witness :
    storeGet [("2026-01", [itemD, itemA])] "2026-02" =
      storeGet [("2026-01", [itemA])] "2026-02" :=
  claim_C7 [itemD, itemC] ["L"] [("2026-01", [itemA])] [("2026-01", [itemD, itemA])] 1
    (by decide) "2026-02" (by decide)

/-- C2: for every month partition, a run of the archive upsert loses no
link - every link recorded before is still recorded after - and, when
the partition satisfied the no-duplicate-link invariant before the
run and the batch carries only non-empty links (as every normalized
feed item does), the partition satisfies it after the run as well. -/
theorem claim_C2 (items : List Item) (latest : List String) (st st' : Store) (n : Nat)
    (hlink : ∀ it ∈ items, it.link ≠ "")
    (hrun : upsert_archive items latest st = some (st', n)) (mk : String)
    (hnd : (partitionLinks st mk).Nodup) :
    (∀ l ∈ partitionLinks st mk, l ∈ partitionLinks st' mk) ∧
    (partitionLinks st' mk).Nodup := by
  obtain ⟨gs, hgs, hups⟩ := Option.map_eq_some'.mp hrun
  have hgnd := groupByMonth_keys_nodup items [] gs (by simp) hgs
  have harr := groupByMonth_getD items [] gs hgs mk
  simp only [storeGet, Option.getD_none, List.nil_append] at harr
  have hst : st' = (upsertMonths latest gs st).1 := by rw [hups]
  have hchar : storeGet st' mk = monthResult latest st mk ((storeGet gs mk).getD []) := by
    rw [hst, upsertMonths_storeGet latest gs st mk hgnd]
  by_cases he :
      (admitItems (existingLinks ((storeGet st mk).getD []) ++ latest)
        ((storeGet gs mk).getD [])).isEmpty = true
  · have hsame : storeGet st' mk = storeGet st mk := by
      rw [hchar]
      simp [monthResult, he]
    rw [partitionLinks, partitionLinks, hsame]
    exact ⟨fun l hl => hl, hnd⟩
  · have hsome : storeGet st' mk =
        some (sortPubDesc ((storeGet st mk).getD [] ++
          admitItems (existingLinks ((storeGet st mk).getD []) ++ latest)
            ((storeGet gs mk).getD []))) := by
      rw [hchar]
      simp [monthResult, he]
    have hperm : ((sortPubDesc ((storeGet st mk).getD [] ++
        admitItems (existingLinks ((storeGet st mk).getD []) ++ latest)
          ((storeGet gs mk).getD []))).map (fun x => x.link)).Perm
        ((((storeGet st mk).getD []).map (fun x => x.link)) ++
          ((admitItems (existingLinks ((storeGet st mk).getD []) ++ latest)
            ((storeGet gs mk).getD [])).map (fun x => x.link))) := by
      have := (sortPubDesc_perm ((storeGet st mk).getD [] ++
        admitItems (existingLinks ((storeGet st mk).getD []) ++ latest)
          ((storeGet gs mk).getD []))).map (fun x => x.link)
      simpa [List.map_append] using this
    constructor
    · intro l hl
      rw [partitionLinks, hsome]
      simp only [Option.getD_some]
      exact hperm.mem_iff.mpr (List.mem_append_left _ hl)
    · rw [partitionLinks, hsome]
      simp only [Option.getD_some]
      rw [hperm.nodup_iff]
      refine hnd.append (admitItems_links_nodup _ _) ?_
      intro l hl1 hl2
      obtain ⟨b, hb, hbl⟩ := List.mem_map.mp hl2
      have hbarr : b ∈ (storeGet gs mk).getD [] := admitItems_sub _ _ b hb
      have hbitems : b ∈ items := by
        rw [harr] at hbarr
        exact List.mem_of_mem_filter hbarr
      have hnotseen := admitItems_notin_seen _ _ b hb
      apply hnotseen
      apply List.mem_append_left
      apply mem_existingLinks.mpr
      obtain ⟨a, ha, hal⟩ := List.mem_map.mp hl1
      exact ⟨a, ha, hal.trans hbl.symm, hlink b hbitems⟩

/-- C2 witness: upserting a new-link item into a concrete partition
keeps the old link and leaves the link set duplicate-free. -/
theorem claim_C2_witness :
    "L" ∈ partitionLinks [("2026-01", [itemD, itemA])] "2026-01" ∧
    (partitionLinks [("2026-01", [itemD, itemA])] "2026-01").Nodup := by
  have h := claim_C2 [itemD] [] [("2026-01", [itemA])] [("2026-01", [itemD, itemA])] 1
    (by decide) (by decide) "2026-01" (by decide)
  exact ⟨h.1 "L" (by decide), h.2⟩

/-- C3: the archive upsert is idempotent: re-applying it with the same
batch of items (each with a non-empty link, with batch links already
deduplicated) and the same latest-window links, on the store the first
application produced, persists zero new items and returns the store
unchanged - no partition entry is rewritten. -/
theorem claim_C3 (items : List Item) (latest : List String) (st st1 : Store) (n : Nat)
    (hlink : ∀ it ∈ items, it.link ≠ "")
    (_hdedup : (items.map (fun x => x.link)).Nodup)
    (hrun : upsert_archive items latest st = some (st1, n)) :
    upsert_archive items latest st1 = some (st1, 0) := by
  obtain ⟨gs, hgs, hups⟩ := Option.map_eq_some'.mp hrun
  have hgnd := groupByMonth_keys_nodup items [] gs (by simp) hgs
  have hgoal : upsertMonths latest gs st1 = (st1, 0) := by
    apply upsertMonths_all_rejected
    intro p hp
    obtain ⟨k, arr⟩ := p
    apply admitItems_of_all_seen
    intro it hit
    have hlook : storeGet gs k = some arr := storeGet_of_mem_nodup hgnd hp
    have harrk := groupByMonth_getD items [] gs hgs k
    simp only [storeGet, Option.getD_none, List.nil_append, hlook, Option.getD_some] at harrk
    have hitf : it ∈ items.filter (fun x => monthKeyOfItem x == some k) := harrk ▸ hit
    have hitems : it ∈ items := List.mem_of_mem_filter hitf
    have hst1 : storeGet st1 k = monthResult latest st k arr := by
      have hh := upsertMonths_storeGet latest gs st k hgnd
      rw [hups] at hh
      rw [hlook] at hh
      simpa using hh
    by_cases he :
        (admitItems (existingLinks ((storeGet st k).getD []) ++ latest) arr).isEmpty = true
    · have hnil : admitItems (existingLinks ((storeGet st k).getD []) ++ latest) arr = [] := by
        simpa using he
      have hsame : storeGet st1 k = storeGet st k := by
        rw [hst1]
        simp [monthResult, he]
      have hseen := admitItems_eq_nil_all_seen arr _ hnil it hit
      rw [hsame]
      exact hseen
    · have hsome : storeGet st1 k =
          some (sortPubDesc ((storeGet st k).getD [] ++
            admitItems (existingLinks ((storeGet st k).getD []) ++ latest) arr)) := by
        rw [hst1]
        simp [monthResult, he]
      rw [hsome]
      simp only [Option.getD_some]
      rcases admitItems_mem_or arr _ it hit with h | h
      · rcases List.mem_append.mp h with h | h
        · apply List.mem_append_left
          obtain ⟨a, ha, hal, hne⟩ := mem_existingLinks.mp h
          apply mem_existingLinks.mpr
          refine ⟨a, ?_, hal, hne⟩
          exact (sortPubDesc_perm _).mem_iff.mpr (List.mem_append_left _ ha)
        · exact List.mem_append_right _ h
      · apply List.mem_append_left
        obtain ⟨b, hb, hbl⟩ := List.mem_map.mp h
        have hbarr : b ∈ arr := admitItems_sub _ _ b hb
        have hbitems : b ∈ items := by
          have : b ∈ items.filter (fun x => monthKeyOfItem x == some k) := harrk ▸ hbarr
          exact List.mem_of_mem_filter this
        apply mem_existingLinks.mpr
        refine ⟨b, ?_, hbl, hbl ▸ hlink b hbitems⟩
        exact (sortPubDesc_perm _).mem_iff.mpr (List.mem_append_right _ hb)
  rw [upsert_archive, hgs]
  simp only [Option.map_some']
  rw [hgoal]

/-- C3 witness: re-running the upsert with the same one-item batch on
the store the first run produced adds zero items and returns the store
unchanged. -/
theorem claim_C3_witness :
    upsert_archive [itemA] [] [("2026-01", [itemA])] =
      some ([("2026-01", [itemA])], 0) :=
  claim_C3 [itemA] [] [] [("2026-01", [itemA])] 1 (by decide) (by decide) (by decide)

theorem storeGet_storeErase_self (st : Store) (mk : String) :
    storeGet (storeErase st mk) mk = none := by
  induction st with
  | nil => rfl
  | cons hd tl ih =>
      obtain ⟨k, v⟩ := hd
      by_cases hk : k = mk
      · simp [storeErase, hk, ih]
      · simp [storeErase, storeGet, hk, ih]

theorem storeGet_storeErase_ne (st : Store) (k mk : String) (h : k ≠ mk) :
    storeGet (storeErase st k) mk = storeGet st mk := by
  induction st with
  | nil => rfl
  | cons hd tl ih =>
      obtain ⟨k0, v⟩ := hd
      by_cases hk : k0 = k
      · have hkm : ¬ k0 = mk := fun hc => h (hk.symm.trans hc)
        simp [storeErase, storeGet, hk, hkm, ih, h]
      · simp [storeErase, storeGet, hk, ih]

theorem pruneFold_none_mono (cutoff : Int × Int) (ms : List String) :
    ∀ (st st' : Store) (mk : String), storeGet st mk = none →
      pruneFold cutoff ms st = some st' → storeGet st' mk = none := by
  induction ms with
  | nil =>
      intro st st' mk hsg h
      simp only [pruneFold, Option.some.injEq] at h
      exact h ▸ hsg
  | cons hd tl ih =>
      intro st st' mk hsg h
      cases hp : parseMonthKey hd with
      | none =>
          simp only [pruneFold, hp] at h
          exact Option.noConfusion h
      | some ym =>
          simp only [pruneFold, hp] at h
          by_cases hlt : monthStartLt ym cutoff = true
          · rw [if_pos hlt] at h
            refine ih _ _ mk ?_ h
            by_cases hk : hd = mk
            · rw [hk, storeGet_storeErase_self]
            · rw [storeGet_storeErase_ne _ _ _ hk]
              exact hsg
          · rw [if_neg hlt] at h
            exact ih _ _ mk hsg h

theorem pruneFold_keep (cutoff : Int × Int) (ms : List String) :
    ∀ (st st' : Store) (mk : String) (ym : Int × Int), parseMonthKey mk = some ym →
      monthStartLt ym cutoff = false → pruneFold cutoff ms st = some st' →
      storeGet st' mk = storeGet st mk := by
  induction ms with
  | nil =>
      intro st st' mk ym _ _ h
      simp only [pruneFold, Option.some.injEq] at h
      rw [h]
  | cons hd tl ih =>
      intro st st' mk ym hparse hlt h
      cases hp : parseMonthKey hd with
      | none =>
          simp only [pruneFold, hp] at h
          exact Option.noConfusion h
      | some ymh =>
          simp only [pruneFold, hp] at h
          by_cases hlth : monthStartLt ymh cutoff = true
          · rw [if_pos hlth] at h
            by_cases hk : hd = mk
            · exfalso
              rw [hk, hparse] at hp
              have hy : ymh = ym := by injection hp.symm
              rw [hy, hlt] at hlth
              cases hlth
            · rw [ih _ _ mk ym hparse hlt h, storeGet_storeErase_ne _ _ _ hk]
          · rw [if_neg hlth] at h
            exact ih _ _ mk ym hparse hlt h

theorem pruneFold_delete (cutoff : Int × Int) (ms : List String) :
    ∀ (st st' : Store) (mk : String) (ym : Int × Int), mk ∈ ms →
      parseMonthKey mk = some ym → monthStartLt ym cutoff = true →
      pruneFold cutoff ms st = some st' → storeGet st' mk = none := by
  induction ms with
  | nil => intro st st' mk ym hmem; cases hmem
  | cons hd tl ih =>
      intro st st' mk ym hmem hparse hlt h
      cases hp : parseMonthKey hd with
      | none =>
          simp only [pruneFold, hp] at h
          exact Option.noConfusion h
      | some ymh =>
          simp only [pruneFold, hp] at h
          by_cases hk : hd = mk
          · have hy : ymh = ym := by
              rw [hk, hparse] at hp
              injection hp.symm
            rw [hy] at h
            rw [if_pos hlt] at h
            refine pruneFold_none_mono cutoff tl _ _ mk ?_ h
            rw [hk, storeGet_storeErase_self]
          · have hmem2 : mk ∈ tl := by
              rcases List.mem_cons.mp hmem with hc | hc
              · exact absurd hc.symm hk
              · exact hc
            by_cases hlth : monthStartLt ymh cutoff = true
            · rw [if_pos hlth] at h
              exact ih _ _ mk ym hmem2 hparse hlt h
            · rw [if_neg hlth] at h
              exact ih _ _ mk ym hmem2 hparse hlt h

theorem storeGet_some_mem_keys {st : Store} {mk : String} {v : List Item}
    (h : storeGet st mk = some v) : mk ∈ st.map (fun e => e.1) := by
  induction st with
  | nil => cases h
  | cons hd tl ih =>
      obtain ⟨k, w⟩ := hd
      by_cases hk : k = mk
      · simp [hk]
      · simp only [storeGet, if_neg hk] at h
        exact List.mem_cons_of_mem _ (ih h)

theorem mem_removeDupStr (l : List String) :
    ∀ (seen : List String) (x : String), x ∈ l → x ∉ seen → x ∈ removeDupStr seen l := by
  induction l with
  | nil => intro seen x h; cases h
  | cons hd tl ih =>
      intro seen x hmem hns
      simp only [removeDupStr]
      by_cases hs : hd ∈ seen
      · rw [if_pos hs]
        rcases List.mem_cons.mp hmem with hc | hc
        · exact absurd (hc ▸ hs) hns
        · exact ih seen x hc hns
      · rw [if_neg hs]
        rcases List.mem_cons.mp hmem with hc | hc
        · exact hc ▸ List.mem_cons_self _ _
        · by_cases hx : x = hd
          · exact hx ▸ List.mem_cons_self _ _
          · refine List.mem_cons_of_mem _ (ih _ x hc ?_)
            intro hcc
            rcases List.mem_cons.mp hcc with hcc | hcc
            · exact hx hcc
            · exact hns hcc

theorem insertAsc_perm (s : String) (l : List String) :
    (insertAsc s l).Perm (s :: l) := by
  induction l with
  | nil => simp [insertAsc]
  | cons x xs ih =>
      simp only [insertAsc]
      by_cases hp : strLe s x = true
      · rw [if_pos hp]
      · rw [if_neg hp]
        exact (ih.cons x).trans (List.Perm.swap s x xs)

theorem sortStrAsc_perm (l : List String) : (sortStrAsc l).Perm l := by
  induction l with
  | nil => simp [sortStrAsc]
  | cons hd tl ih =>
      have hstep : sortStrAsc (hd :: tl) = insertAsc hd (sortStrAsc tl) := rfl
      rw [hstep]
      exact (insertAsc_perm hd (sortStrAsc tl)).trans (ih.cons hd)

theorem mem_list_months (st : Store) (mk : String) {v : List Item}
    (h : storeGet st mk = some v) : mk ∈ list_months_in_archive st := by
  have h1 : mk ∈ removeDupStr [] (st.map (fun e => e.1)) :=
    mem_removeDupStr _ [] mk (storeGet_some_mem_keys h) (by simp)
  exact (sortStrAsc_perm _).mem_iff.mpr h1

/-- C8: the retention pruner deletes exactly the partitions strictly
older than the cutoff month, where the cutoff is the current JST
(year, month) minus `KEEP_YEARS` years truncated to the first of the
month: a partition whose (year, month) is strictly earlier no longer
exists afterwards, and a partition at or after the cutoff is left
exactly as it was. -/
theorem claim_C8 (nowYear nowMonth : Int) (st st' : Store)
    (hrun : prune_old_archives nowYear nowMonth st = some st')
    (mk : String) (y m : Int) (hparse : parseMonthKey mk = some (y, m)) :
    (monthStartLt (y, m) (nowYear - KEEP_YEARS, nowMonth) = true →
      storeGet st' mk = none) ∧
    (monthStartLt (y, m) (nowYear - KEEP_YEARS, nowMonth) = false →
      storeGet st' mk = storeGet st mk) := by
  have hrun2 : pruneFold (nowYear - KEEP_YEARS, nowMonth) (list_months_in_archive st) st =
      some st' := hrun
  constructor
  · intro hlt
    cases hsg : storeGet st mk with
    | none => exact pruneFold_none_mono _ _ _ _ mk hsg hrun2
    | some v =>
        exact pruneFold_delete _ _ _ _ mk (y, m) (mem_list_months st mk hsg) hparse hlt hrun2
  · intro hlt
    exact pruneFold_keep _ _ _ _ mk (y, m) hparse hlt hrun2

/-- C8 witness: with the clock at JST 2026-10 and KEEP_YEARS = 5
(cutoff month 2021-10), pruning a concrete store deletes the 2020-01
partition and leaves the 2025-12 partition untouched. -/
theorem claim_C8_witness :
    storeGet [("2025-12", [itemC])] "2020-01" = none ∧
    storeGet [("2025-12", [itemC])] "2025-12" =
      storeGet [("2020-01", [itemA]), ("2025-12", [itemC])] "2025-12" := by
  constructor
  · exact (claim_C8 2026 10 [("2020-01", [itemA]), ("2025-12", [itemC])]
      [("2025-12", [itemC])] (by decide) "2020-01" 2020 1 (by decide)).1 (by decide)
  · exact (claim_C8 2026 10 [("2020-01", [itemA]), ("2025-12", [itemC])]
      [("2025-12", [itemC])] (by decide) "2025-12" 2025 12 (by decide)).2 (by decide)
